import Mathlib

/-!
# Treap-backed ordered map (`task1_map/Treap.tpp`)

A shallow embedding of `SearchingTree<int, C>` and its `Iterator`.

* An owning pointer `PNode<int, C>` is either null or a node; the heap reachable
  from a root is a tree since every node has exactly one owner.  In-place
  relinking (`l->r = merge(l->r, r)`) is modelled by rebuilding the node.
* `unsigned prior` is a natural number; the code only compares priorities.
* `int` keys are integers and every comparison is exact; the one arithmetic
  expression, `key + 1` in `erase`, is undefined at `INT_MAX` (signed overflow).
* A pointer held by an iterator (`cur`, the entries of `st`) is the address of
  a node inside the tree rooted at `root`.  Addresses are modelled by the
  path of child selections leading from the root to the node: two pointers
  are equal exactly when their paths are.
* `std::runtime_error` and undefined behaviour (null dereference, `top()` on
  an empty stack, `delete` of a node owned by a `shared_ptr`) are the two
  constructors of `Fault`.
-/

namespace Treap

/-- A `PNode<int, C>`: `nil` is `nullptr`, `node` is a pointer to a `Node`
with fields `prior`, `key`, `value`, `l`, `r`. -/
inductive PNode (C : Type) where
  | nil : PNode C
  | node (prior : Nat) (key : Int) (value : C) (l r : PNode C) : PNode C
deriving DecidableEq

namespace PNode

variable {C : Type}

/-- Conversion of a pointer to `bool`: true when it is not null. -/
def toBool : PNode C → Bool
  | nil => false
  | node _ _ _ _ _ => true

/-- In-order sequence of the `(key, value)` entries of a tree. -/
def toList : PNode C → List (Int × C)
  | nil => []
  | node _ k v l r => toList l ++ (k, v) :: toList r

/-- In-order sequence of the keys of a tree. -/
def keys : PNode C → List Int
  | nil => []
  | node _ k _ l r => keys l ++ k :: keys r

/-- Number of nodes of a tree. -/
def size : PNode C → Nat
  | nil => 0
  | node _ _ _ l r => size l + 1 + size r

/-- BST invariant: at every node, all keys of `l` are strictly smaller and all
keys of `r` strictly greater than the node's key. -/
def BST : PNode C → Prop
  | nil => True
  | node _ k _ l r => (∀ x ∈ keys l, x < k) ∧ (∀ x ∈ keys r, k < x) ∧ BST l ∧ BST r

/-- The priority of the root of `t` is at most `p` (vacuous for `nullptr`). -/
def rootLE : PNode C → Nat → Prop
  | nil, _ => True
  | node q _ _ _ _, p => q ≤ p

/-- Heap invariant: every node's priority is at least the priority of each of
its children. -/
def Heap : PNode C → Prop
  | nil => True
  | node p _ _ l r => rootLE l p ∧ rootLE r p ∧ Heap l ∧ Heap r

/-- In-order sequence of the nodes of a tree, as `(prior, key, value)`. -/
def nodes : PNode C → List (Nat × Int × C)
  | nil => []
  | node p k v l r => nodes l ++ (p, k, v) :: nodes r

/-- In-order sequence of the priorities of the nodes of a tree. -/
def priors : PNode C → List Nat
  | nil => []
  | node p _ _ l r => priors l ++ p :: priors r

/-- The BST invariant can be checked by running over the tree. -/
def decBST : (t : PNode C) → Decidable (BST t)
  | nil => isTrue trivial
  | node _ k _ l r =>
    match decBST l, decBST r with
    | isTrue hl, isTrue hr =>
      if h1 : ∀ x ∈ keys l, x < k then
        if h2 : ∀ x ∈ keys r, k < x then isTrue ⟨h1, h2, hl, hr⟩
        else isFalse (fun h => h2 h.2.1)
      else isFalse (fun h => h1 h.1)
    | isFalse hl, _ => isFalse (fun h => hl h.2.2.1)
    | _, isFalse hr => isFalse (fun h => hr h.2.2.2)

instance instDecidableBST (t : PNode C) : Decidable (BST t) := decBST t

instance instDecidableRootLE (t : PNode C) (p : Nat) : Decidable (rootLE t p) :=
  match t with
  | nil => isTrue trivial
  | node q _ _ _ _ => inferInstanceAs (Decidable (q ≤ p))

/-- The heap invariant can be checked by running over the tree. -/
def decHeap : (t : PNode C) → Decidable (Heap t)
  | nil => isTrue trivial
  | node p _ _ l r =>
    match decHeap l, decHeap r with
    | isTrue hl, isTrue hr =>
      if h1 : rootLE l p then
        if h2 : rootLE r p then isTrue ⟨h1, h2, hl, hr⟩
        else isFalse (fun h => h2 h.2.1)
      else isFalse (fun h => h1 h.1)
    | isFalse hl, _ => isFalse (fun h => hl h.2.2.1)
    | _, isFalse hr => isFalse (fun h => hr h.2.2.2)

instance instDecidableHeap (t : PNode C) : Decidable (Heap t) := decHeap t

/-- Inner recursion of `merge` for a fixed non-null `l = node pl kl vl ll lr`:
walks down the left spine of `r` while `l->prior > r->prior` fails; `m` is
`merge(l->r, ·)`. -/
def mergeGo (pl : Nat) (kl : Int) (vl : C) (ll lr : PNode C) (m : PNode C → PNode C) :
    PNode C → PNode C
  | nil => node pl kl vl ll lr
  | node pr kr vr rl rr =>
    if pl > pr then node pl kl vl ll (m (node pr kr vr rl rr))
    else node pr kr vr (mergeGo pl kl vl ll lr m rl) rr

/-- `SearchingTree::merge`. -/
def merge : PNode C → PNode C → PNode C
  | nil => fun r => r
  | node pl kl vl ll lr => mergeGo pl kl vl ll lr (merge lr)

/-- `SearchingTree::split`. -/
def split : PNode C → Int → PNode C × PNode C
  | nil, _ => (nil, nil)
  | node p k v l r, key =>
    if k < key then
      let q := split r key
      (node p k v l q.1, q.2)
    else
      let q := split l key
      (q.1, node p k v q.2 r)

/-- The loop of `SearchingTree::is_present`, started at `v`. -/
def is_present_loop : PNode C → Int → Bool
  | nil, _ => false
  | node _ k _ l r, key =>
    if k = key then true
    else if k < key then is_present_loop r key
    else is_present_loop l key

end PNode

open PNode

/-- The ways a call can fail. -/
inductive Fault where
  | runtime_error : Fault
  | undefined : Fault
deriving DecidableEq

deriving instance DecidableEq for Except

/-- The largest value of the 32-bit `int` used for the keys. -/
def INT_MAX : Int := 2147483647

/-- The class `SearchingTree<int, C>`: its only member is `root`. -/
structure SearchingTree (C : Type) where
  root : PNode C
deriving DecidableEq

namespace SearchingTree

variable {C : Type}

/-- A default-constructed map: `root = nullptr`. -/
def empty : SearchingTree C := ⟨nil⟩

/-- `SearchingTree::is_present`: the answer together with the object after
the call (the method is not `const`, but writes nothing). -/
def is_present (self : SearchingTree C) (key : Int) : Bool × SearchingTree C :=
  (is_present_loop self.root key, self)

/-- `SearchingTree::insert`; `rnd` is the number the generator returns to the
`Node` constructor, which runs only when the key is absent. -/
def insert (self : SearchingTree C) (key : Int) (value : C) (rnd : Nat) : SearchingTree C :=
  let (present, self) := self.is_present key
  if present then self
  else
    let q := split self.root key
    let t := node rnd key value nil nil
    ⟨merge q.1 (merge t q.2)⟩

/-- The expression `key + 1` of `erase` on `int`: the exact successor, except
at `INT_MAX`, where signed overflow is undefined behaviour. -/
def key_succ (key : Int) : Except Fault Int :=
  if key = INT_MAX then Except.error Fault.undefined else Except.ok (key + 1)

/-- The statement `delete q1.first;` of `erase`.  Its operand is a
`std::shared_ptr`, for which `delete` is ill-formed, so the statement has no
meaning as written; read as `delete` of the node the pointer owns, it frees
an object that `make_shared` allocated and that `shared_ptr`s still own, which
is undefined behaviour.  Either way no defined state follows it. -/
def delete_ (_p : PNode C) : Except Fault Unit :=
  Except.error Fault.undefined

/-- `SearchingTree::erase`, statement by statement. -/
def erase (self : SearchingTree C) (key : Int) : Except Fault (SearchingTree C) :=
  let (present, self) := self.is_present key
  if !present then Except.ok self
  else
    let q := split self.root key
    match key_succ key with
    | Except.error f => Except.error f
    | Except.ok key1 =>
      let q1 := split q.2 key1
      match delete_ q1.1 with
      | Except.error f => Except.error f
      | Except.ok _ => Except.ok ⟨merge q.1 q1.2⟩

end SearchingTree

/-- One call of a mutating method, with the priority drawn if a node is created. -/
inductive Call (C : Type) where
  | insert (key : Int) (value : C) (rnd : Nat) : Call C
  | erase (key : Int) : Call C

/-- Effect of one call on a map: the map after it, or the fault it raises. -/
def Call.apply {C : Type} (m : SearchingTree C) : Call C → Except Fault (SearchingTree C)
  | Call.insert k v p => Except.ok (m.insert k v p)
  | Call.erase k => m.erase k

/-- The map built by `main`: `insert(1, 1)`, `insert(2, 2)`, `insert(3, 6)`,
`insert(4, 24)`, with the priorities drawn for the four nodes. -/
def mainMap (p1 p2 p3 p4 : Nat) : SearchingTree Int :=
  (((SearchingTree.empty.insert 1 1 p1).insert 2 2 p2).insert 3 6 p3).insert 4 24 p4

/-- The child slot through which a pointer is reached from its parent. -/
inductive Dir where
  | L : Dir
  | R : Dir
deriving DecidableEq

/-- The address of a node of the tree owned by `root`: the child selections
leading from the root to it, first step first. -/
abbrev Addr := List Dir

namespace PNode

variable {C : Type}

/-- The pointer stored in child slot `d` of a node (`nullptr` read through
`nullptr` stays `nullptr`). -/
def child : PNode C → Dir → PNode C
  | nil, _ => nil
  | node _ _ _ l _, Dir.L => l
  | node _ _ _ _ r, Dir.R => r

/-- The node found at address `a` below `t`, `nil` when there is none. -/
def subtree : PNode C → Addr → PNode C
  | t, [] => t
  | t, d :: a => subtree (child t d) a

/-- The value of the pointer expression `x->l` (`d = L`) or `x->r` (`d = R`)
for the node `x` at address `a`: `none` is `nullptr`. -/
def ptr (t : PNode C) (a : Addr) (d : Dir) : Option Addr :=
  if (subtree t (a ++ [d])).toBool then some (a ++ [d]) else none

/-- The value of the pointer `root`. -/
def rootPtr (t : PNode C) : Option Addr :=
  if t.toBool then some [] else none

end PNode

/-- The class `SearchingTree::Iterator`: `cur` (`none` is `nullptr`), the
stack `st` with its top first, and the flag `is_end`. -/
structure Iterator where
  cur : Option Addr
  st : List Addr
  is_end : Bool
deriving DecidableEq

namespace Iterator

variable {C : Type}

/-- The loop `while (cur) { st.push(cur); cur = cur->l; }` of `move_left`,
for `cur` pointing to the tree `v` at address `a`; returns the final stack. -/
def move_left_loop : PNode C → Addr → List Addr → List Addr
  | nil, _, st => st
  | node _ _ _ l _, a, st => move_left_loop l (a ++ [Dir.L]) (a :: st)

/-- `Iterator::move_left`, on the heap owned by `t`. -/
def move_left (t : PNode C) (it : Iterator) : Except Fault Iterator :=
  let st :=
    match it.cur with
    | none => it.st
    | some a => move_left_loop (subtree t a) a it.st
  match st with
  | [] => Except.error Fault.undefined
  | top :: st => Except.ok ⟨some top, st, it.is_end⟩

/-- `Iterator::operator==`. -/
def eq (t : PNode C) (self other : Iterator) : Except Fault Bool :=
  if self.is_end && other.is_end then Except.ok true
  else if !self.is_end && !other.is_end then
    match self.cur, other.cur with
    | some a, some b =>
      match subtree t a, subtree t b with
      | node _ ka _ _ _, node _ kb _ _ _ => Except.ok (decide (ka = kb))
      | _, _ => Except.error Fault.undefined
    | _, _ => Except.error Fault.undefined
  else Except.ok false

/-- `Iterator::operator!=`. -/
def ne (t : PNode C) (self other : Iterator) : Except Fault Bool :=
  match eq t self other with
  | Except.ok b => Except.ok (!b)
  | Except.error f => Except.error f

/-- `Iterator::operator*`. -/
def deref (t : PNode C) (self : Iterator) : Except Fault (Int × C) :=
  if self.is_end then Except.error Fault.runtime_error
  else
    match self.cur with
    | none => Except.error Fault.undefined
    | some a =>
      match subtree t a with
      | nil => Except.error Fault.undefined
      | node _ k v _ _ => Except.ok (k, v)

/-- The loop `while (cur->l != nullptr) { st.push(cur); cur = cur->l; }` of
`operator++`, for `cur` pointing to the node `v` at address `a`. -/
def incr_descend : PNode C → Addr → List Addr → Addr × List Addr
  | nil, a, st => (a, st)
  | node _ _ _ nil _, a, st => (a, st)
  | node _ _ _ (node pl kl vl ll lr) _, a, st =>
    incr_descend (node pl kl vl ll lr) (a ++ [Dir.L]) (a :: st)

/-- The loop `do { cur = st.top(); st.pop(); } while (cur->r == prev);` of
`operator++`; returns the final `cur` and stack. -/
def incr_pop (t : PNode C) (prev : Addr) : List Addr → Except Fault (Addr × List Addr)
  | [] => Except.error Fault.undefined
  | top :: st =>
    if ptr t top Dir.R = some prev then incr_pop t prev st
    else Except.ok (top, st)

/-- `Iterator::operator++`, on the heap owned by `t`. -/
def incr (t : PNode C) (self : Iterator) : Except Fault Iterator :=
  match self.cur with
  | none => Except.error Fault.runtime_error
  | some a =>
    match subtree t a with
    | nil => Except.error Fault.undefined
    | node _ _ _ _ (node pr kr vr rl rr) =>
      let (c, st) := incr_descend (node pr kr vr rl rr) (a ++ [Dir.R]) self.st
      Except.ok ⟨some c, st, self.is_end⟩
    | node _ _ _ _ nil =>
      match self.st with
      | [] => Except.ok ⟨none, [], true⟩
      | top :: st =>
        match incr_pop t a (top :: st) with
        | Except.error f => Except.error f
        | Except.ok (c, st) => Except.ok ⟨some c, st, self.is_end⟩

/-- Puts the entries `xs` in front of the entries of a finished loop. -/
def prepend {α : Type} (xs : List α) :
    Option (Except Fault (List α)) → Option (Except Fault (List α))
  | none => none
  | some (Except.error f) => some (Except.error f)
  | some (Except.ok es) => some (Except.ok (xs ++ es))

/-- The iterator `operator++` leaves behind at a node without right child
when the stack is `st` and its top is not the parent of that node. -/
def popState : List Addr → Iterator
  | [] => ⟨none, [], true⟩
  | top :: st => ⟨some top, st, false⟩

/-- The top of the stack, if any, is an ancestor of `a` that has `a` in its
left subtree. -/
def TopLeftOf (a : Addr) (st : List Addr) : Prop :=
  ∀ q, st.head? = some q → ∃ x, a = q ++ Dir.L :: x

/-- The loop `for (; first != last; ++first) yield(*first);` run for at most
`fuel` comparisons: `none` when the fuel runs out, otherwise the fault raised
or the entries yielded. -/
def for_loop (t : PNode C) : Nat → Iterator → Iterator → Option (Except Fault (List (Int × C)))
  | 0, _, _ => none
  | fuel + 1, first, last =>
    match ne t first last with
    | Except.error f => some (Except.error f)
    | Except.ok false => some (Except.ok [])
    | Except.ok true =>
      match deref t first with
      | Except.error f => some (Except.error f)
      | Except.ok e =>
        match incr t first with
        | Except.error f => some (Except.error f)
        | Except.ok next =>
          match for_loop t fuel next last with
          | none => none
          | some (Except.error f) => some (Except.error f)
          | some (Except.ok es) => some (Except.ok (e :: es))

end Iterator

namespace SearchingTree

variable {C : Type}

/-- `SearchingTree::begin`. -/
def begin_ (self : SearchingTree C) : Except Fault Iterator :=
  Iterator.move_left self.root ⟨rootPtr self.root, [], false⟩

/-- `SearchingTree::end`. -/
def end_ (_self : SearchingTree C) : Iterator :=
  ⟨none, [], true⟩

/-- The loop of `SearchingTree::find` with `v` at address `a`.  On a match
the source returns `Iterator(st, v, v->l)`: the third argument is a pointer
where the constructor takes the `bool` end flag.  As written the call is
ill-formed (the conversion of `shared_ptr` to `bool` is explicit); the model
follows the reading `bool(v->l)`, the flag the code asks for. -/
def find_loop (key : Int) : PNode C → Addr → List Addr → Iterator
  | nil, _, _ => ⟨none, [], true⟩
  | node _ k _ l r, a, st =>
    if k = key then ⟨some a, st, l.toBool⟩
    else if k < key then find_loop key r (a ++ [Dir.R]) (a :: st)
    else find_loop key l (a ++ [Dir.L]) (a :: st)

/-- `SearchingTree::find`. -/
def find (self : SearchingTree C) (key : Int) : Iterator :=
  find_loop key self.root [] []

/-- The loop of `SearchingTree::lower_bound` with `v` at address `a`. -/
def lower_bound_loop (key : Int) : PNode C → Addr → List Addr → Iterator
  | nil, _, st => ⟨none, st, false⟩
  | node _ k _ l r, a, st =>
    if k = key then ⟨some a, st, false⟩
    else if k < key then lower_bound_loop key r (a ++ [Dir.R]) (a :: st)
    else lower_bound_loop key l (a ++ [Dir.L]) (a :: st)

/-- `SearchingTree::lower_bound`. -/
def lower_bound (self : SearchingTree C) (key : Int) : Iterator :=
  lower_bound_loop key self.root [] []

/-- The loop of `SearchingTree::upper_bound` with `v` at address `a`;
returns the final stack and `candidate`. -/
def upper_bound_loop (key : Int) :
    PNode C → Addr → List Addr → Option Addr → List Addr × Option Addr
  | nil, _, st, candidate => (st, candidate)
  | node _ k _ l r, a, st, candidate =>
    if k > key then upper_bound_loop key l (a ++ [Dir.L]) (a :: st) (some a)
    else upper_bound_loop key r (a ++ [Dir.R]) st candidate

/-- `SearchingTree::upper_bound`. -/
def upper_bound (self : SearchingTree C) (key : Int) : Iterator :=
  match upper_bound_loop key self.root [] [] none with
  | (st, some candidate) => ⟨some candidate, st, false⟩
  | (_, none) => self.end_

/-- The struct `SearchingTree::Range`. -/
structure Range where
  first : Iterator
  second : Iterator
deriving DecidableEq

/-- `SearchingTree::range`. -/
def range (self : SearchingTree C) (left right : Int) : Range :=
  ⟨self.lower_bound left, self.lower_bound right⟩

/-- A full traversal `for (auto e : map)` with at most `fuel` comparisons. -/
def traverse (self : SearchingTree C) (fuel : Nat) : Option (Except Fault (List (Int × C))) :=
  match self.begin_ with
  | Except.error f => some (Except.error f)
  | Except.ok it => Iterator.for_loop self.root fuel it self.end_

/-- The loop `for (auto e : map.range(left, right))` with at most `fuel`
comparisons: `Range::begin()` is `first`, `Range::end()` is `second`. -/
def traverse_range (self : SearchingTree C) (left right : Int) (fuel : Nat) :
    Option (Except Fault (List (Int × C))) :=
  let p := self.range left right
  Iterator.for_loop self.root fuel p.first p.second

end SearchingTree


namespace PNode

variable {C : Type}

theorem keys_eq_map (t : PNode C) : keys t = (toList t).map Prod.fst := by
  induction t with
  | nil => rfl
  | node p k v l r ihl ihr => simp [keys, toList, ihl, ihr]

theorem mem_keys_iff (t : PNode C) (k : Int) : k ∈ keys t ↔ ∃ v, (k, v) ∈ toList t := by
  simp [keys_eq_map]

theorem length_toList (t : PNode C) : (toList t).length = size t := by
  induction t with
  | nil => rfl
  | node p k v l r ihl ihr => simp [toList, size, ihl, ihr]; omega

theorem BST_iff_sorted (t : PNode C) : BST t ↔ (keys t).Pairwise (· < ·) := by
  induction t with
  | nil => simp [BST, keys]
  | node p k v l r ihl ihr =>
    simp only [BST, keys, List.pairwise_append, List.pairwise_cons, List.mem_cons, ihl, ihr]
    constructor
    · rintro ⟨h1, h2, h3, h4⟩
      refine ⟨h3, ⟨h2, h4⟩, ?_⟩
      intro a ha b hb
      rcases hb with rfl | hb
      · exact h1 a ha
      · exact lt_trans (h1 a ha) (h2 b hb)
    · rintro ⟨h3, ⟨h2, h4⟩, h5⟩
      exact ⟨fun x hx => h5 x hx k (Or.inl rfl), h2, h3, h4⟩

theorem merge_nil_left (r : PNode C) : merge nil r = r := rfl

theorem merge_nil_right (l : PNode C) : merge l nil = l := by
  cases l <;> rfl

theorem merge_node_node (pl : Nat) (kl : Int) (vl : C) (ll lr : PNode C)
    (pr : Nat) (kr : Int) (vr : C) (rl rr : PNode C) :
    merge (node pl kl vl ll lr) (node pr kr vr rl rr) =
      if pl > pr then node pl kl vl ll (merge lr (node pr kr vr rl rr))
      else node pr kr vr (merge (node pl kl vl ll lr) rl) rr := by
  simp [merge, mergeGo]

/-- Induction along the recursive calls of `merge`. -/
theorem merge_induction {P : PNode C → PNode C → Prop}
    (h1 : ∀ r, P nil r) (h2 : ∀ l, P l nil)
    (h3 : ∀ pl kl vl ll lr pr kr vr rl rr, pl > pr →
      P lr (node pr kr vr rl rr) → P (node pl kl vl ll lr) (node pr kr vr rl rr))
    (h4 : ∀ pl kl vl ll lr pr kr vr rl rr, ¬ pl > pr →
      P (node pl kl vl ll lr) rl → P (node pl kl vl ll lr) (node pr kr vr rl rr))
    (l r : PNode C) : P l r := by
  induction l generalizing r with
  | nil => exact h1 r
  | node pl kl vl ll lr _ ihlr =>
    induction r with
    | nil => exact h2 _
    | node pr kr vr rl rr ihrl _ =>
      by_cases h : pl > pr
      · exact h3 _ _ _ _ _ _ _ _ _ _ h (ihlr _)
      · exact h4 _ _ _ _ _ _ _ _ _ _ h ihrl

theorem toList_merge (l r : PNode C) : toList (merge l r) = toList l ++ toList r := by
  refine merge_induction (P := fun l r => toList (merge l r) = toList l ++ toList r)
    ?_ ?_ ?_ ?_ l r
  · intro r; simp [merge_nil_left, toList]
  · intro l; simp [merge_nil_right, toList]
  · intro pl kl vl ll lr pr kr vr rl rr h ih
    rw [merge_node_node, if_pos h]
    simp [toList, ih] at *
  · intro pl kl vl ll lr pr kr vr rl rr h ih
    rw [merge_node_node, if_neg h]
    simp [toList, ih] at *

theorem keys_merge (l r : PNode C) : keys (merge l r) = keys l ++ keys r := by
  simp [keys_eq_map, toList_merge]

theorem rootLE_mono {t : PNode C} {p q : Nat} (h : rootLE t p) (hpq : p ≤ q) : rootLE t q := by
  cases t with
  | nil => trivial
  | node a _ _ _ _ => exact le_trans h hpq

theorem rootLE_merge {l r : PNode C} {p : Nat} (hl : rootLE l p) (hr : rootLE r p) :
    rootLE (merge l r) p := by
  cases l with
  | nil => simpa [merge_nil_left] using hr
  | node pl kl vl ll lr =>
    cases r with
    | nil => simpa [merge_nil_right] using hl
    | node pr kr vr rl rr =>
      rw [merge_node_node]
      split_ifs
      · exact hl
      · exact hr

theorem Heap_merge (l r : PNode C) : Heap l → Heap r → Heap (merge l r) := by
  refine merge_induction (P := fun l r => Heap l → Heap r → Heap (merge l r))
    ?_ ?_ ?_ ?_ l r
  · intro r _ hr; simpa [merge_nil_left] using hr
  · intro l hl _; simpa [merge_nil_right] using hl
  · intro pl kl vl ll lr pr kr vr rl rr h ih hl hr
    rw [merge_node_node, if_pos h]
    obtain ⟨a, b, c, d⟩ := hl
    refine ⟨a, rootLE_merge b ?_, c, ih d hr⟩
    exact le_of_lt h
  · intro pl kl vl ll lr pr kr vr rl rr h ih hl hr
    rw [merge_node_node, if_neg h]
    obtain ⟨a, b, c, d⟩ := hr
    refine ⟨rootLE_merge ?_ a, b, ih hl c, d⟩
    exact not_lt.mp h

theorem BST_merge {l r : PNode C} (hl : BST l) (hr : BST r)
    (h : ∀ x ∈ keys l, ∀ y ∈ keys r, x < y) : BST (merge l r) := by
  rw [BST_iff_sorted] at *
  rw [keys_merge, List.pairwise_append]
  exact ⟨hl, hr, h⟩

theorem toList_split (v : PNode C) (key : Int) :
    toList (split v key).1 ++ toList (split v key).2 = toList v := by
  induction v with
  | nil => rfl
  | node p k x l r ihl ihr =>
    simp only [split]
    split_ifs
    · simp [toList, ihr]
    · simp [toList, ← ihl]

theorem keys_split (v : PNode C) (key : Int) :
    keys (split v key).1 ++ keys (split v key).2 = keys v := by
  simp [keys_eq_map, ← toList_split v key]

theorem size_split (v : PNode C) (key : Int) :
    size (split v key).1 + size (split v key).2 = size v := by
  simp [← length_toList, ← toList_split v key]

theorem split_bounds (v : PNode C) (key : Int) (h : BST v) :
    (∀ x ∈ keys (split v key).1, x < key) ∧ (∀ x ∈ keys (split v key).2, key ≤ x) := by
  induction v with
  | nil => simp [split, keys]
  | node p k x l r ihl ihr =>
    obtain ⟨h1, h2, h3, h4⟩ := h
    simp only [split]
    split_ifs with hk
    · refine ⟨?_, (ihr h4).2⟩
      intro y hy
      simp only [keys, List.mem_append, List.mem_cons] at hy
      rcases hy with hy | rfl | hy
      · exact lt_trans (h1 y hy) hk
      · exact hk
      · exact (ihr h4).1 y hy
    · refine ⟨(ihl h3).1, ?_⟩
      intro y hy
      simp only [keys, List.mem_append, List.mem_cons] at hy
      rcases hy with hy | rfl | hy
      · exact (ihl h3).2 y hy
      · exact not_lt.mp hk
      · exact le_trans (not_lt.mp hk) (le_of_lt (h2 y hy))

theorem BST_split (v : PNode C) (key : Int) (h : BST v) :
    BST (split v key).1 ∧ BST (split v key).2 := by
  simp only [BST_iff_sorted] at *
  rw [← keys_split v key, List.pairwise_append] at h
  exact ⟨h.1, h.2.1⟩

theorem rootLE_split (v : PNode C) (key : Int) (p : Nat) (hH : Heap v) (hp : rootLE v p) :
    rootLE (split v key).1 p ∧ rootLE (split v key).2 p := by
  induction v generalizing p with
  | nil => simp [split, rootLE]
  | node q k x l r ihl ihr =>
    obtain ⟨h1, h2, h3, h4⟩ := hH
    simp only [split]
    split_ifs
    · exact ⟨hp, (ihr p h4 (rootLE_mono h2 hp)).2⟩
    · exact ⟨(ihl p h3 (rootLE_mono h1 hp)).1, hp⟩

theorem Heap_split (v : PNode C) (key : Int) (hH : Heap v) :
    Heap (split v key).1 ∧ Heap (split v key).2 := by
  induction v with
  | nil => simp [split, Heap]
  | node q k x l r ihl ihr =>
    obtain ⟨h1, h2, h3, h4⟩ := hH
    simp only [split]
    split_ifs
    · exact ⟨⟨h1, (rootLE_split r key q h4 h2).1, h3, (ihr h4).1⟩, (ihr h4).2⟩
    · exact ⟨(ihl h3).1, ⟨(rootLE_split l key q h3 h1).2, h2, (ihl h3).2, h4⟩⟩

theorem is_present_loop_iff (v : PNode C) (key : Int) (h : BST v) :
    is_present_loop v key = true ↔ key ∈ keys v := by
  induction v with
  | nil => simp [is_present_loop, keys]
  | node p k x l r ihl ihr =>
    obtain ⟨h1, h2, h3, h4⟩ := h
    simp only [is_present_loop, keys, List.mem_append, List.mem_cons]
    split_ifs with e hlt
    · simp [e]
    · rw [ihr h4]
      constructor
      · intro hm; exact Or.inr (Or.inr hm)
      · rintro (hm | rfl | hm)
        · exact absurd (h1 key hm) (by omega)
        · exact absurd rfl e
        · exact hm
    · rw [ihl h3]
      constructor
      · intro hm; exact Or.inl hm
      · rintro (hm | rfl | hm)
        · exact hm
        · exact absurd rfl e
        · exact absurd (h2 key hm) (by omega)

end PNode


namespace PNode

variable {C : Type}

theorem fst_lt_of_mem_toList {t : PNode C} {P : Int → Prop} (h : ∀ x ∈ keys t, P x)
    (e : Int × C) (he : e ∈ toList t) : P e.1 :=
  h e.1 (by rw [keys_eq_map]; exact List.mem_map_of_mem _ he)

theorem toList_split_fst (v : PNode C) (key : Int) (h : BST v) :
    toList (split v key).1 = (toList v).filter (fun e => decide (e.1 < key)) := by
  obtain ⟨h1, h2⟩ := split_bounds v key h
  conv_rhs => rw [← toList_split v key]
  rw [List.filter_append, List.filter_eq_self.mpr, List.filter_eq_nil_iff.mpr, List.append_nil]
  · intro e he
    have := fst_lt_of_mem_toList h2 e he
    simpa using this
  · intro e he
    have := fst_lt_of_mem_toList h1 e he
    simpa using this

theorem toList_split_snd (v : PNode C) (key : Int) (h : BST v) :
    toList (split v key).2 = (toList v).filter (fun e => decide (key ≤ e.1)) := by
  obtain ⟨h1, h2⟩ := split_bounds v key h
  conv_rhs => rw [← toList_split v key]
  rw [List.filter_append, List.filter_eq_nil_iff.mpr, List.filter_eq_self.mpr, List.nil_append]
  · intro e he
    have := fst_lt_of_mem_toList h2 e he
    simpa using this
  · intro e he
    have := fst_lt_of_mem_toList h1 e he
    simpa using this

end PNode

namespace SearchingTree

variable {C : Type}

theorem insert_root_absent (t : SearchingTree C) (k : Int) (v : C) (p : Nat)
    (h : is_present_loop t.root k = false) :
    (t.insert k v p).root = merge (split t.root k).1 (merge (node p k v nil nil) (split t.root k).2) := by
  simp [insert, is_present, h]

theorem insert_present (t : SearchingTree C) (k : Int) (v : C) (p : Nat)
    (h : is_present_loop t.root k = true) : t.insert k v p = t := by
  simp [insert, is_present, h]

theorem keys_insert_sublist (t : SearchingTree C) (k : Int) (v : C) (p : Nat)
    (h : is_present_loop t.root k = false) :
    keys (t.insert k v p).root = keys (split t.root k).1 ++ k :: keys (split t.root k).2 := by
  rw [insert_root_absent t k v p h, keys_merge, keys_merge]
  simp [keys]

theorem BST_insert (t : SearchingTree C) (k : Int) (v : C) (p : Nat) (hB : BST t.root) :
    BST (t.insert k v p).root := by
  cases h : is_present_loop t.root k with
  | true => rw [insert_present t k v p h]; exact hB
  | false =>
    have hk : k ∉ keys t.root := by
      rw [← is_present_loop_iff _ _ hB, h]; simp
    obtain ⟨h1, h2⟩ := split_bounds t.root k hB
    obtain ⟨b1, b2⟩ := BST_split t.root k hB
    rw [BST_iff_sorted, keys_insert_sublist t k v p h, List.pairwise_append, List.pairwise_cons]
    rw [BST_iff_sorted] at b1 b2
    have h2s : ∀ x ∈ keys (split t.root k).2, k < x := by
      intro x hx
      have hx1 := h2 x hx
      have hx2 : x ∈ keys t.root := by
        rw [← keys_split t.root k]; exact List.mem_append_right _ hx
      rcases lt_or_eq_of_le hx1 with hlt | heq
      · exact hlt
      · exact absurd (heq ▸ hx2) hk
    refine ⟨b1, ⟨h2s, b2⟩, ?_⟩
    intro a ha b hb
    rcases List.mem_cons.mp hb with rfl | hb
    · exact h1 a ha
    · exact lt_trans (h1 a ha) (h2s b hb)

end SearchingTree



namespace PNode

variable {C : Type}

theorem nodes_split (v : PNode C) (key : Int) :
    nodes (split v key).1 ++ nodes (split v key).2 = nodes v := by
  induction v with
  | nil => rfl
  | node p k x l r ihl ihr =>
    simp only [split]
    split_ifs
    · simp [nodes, ihr]
    · simp [nodes, ← ihl]

end PNode

namespace SearchingTree

variable {C : Type}

theorem toList_insert (t : SearchingTree C) (k : Int) (v : C) (p : Nat) (hB : BST t.root)
    (hk : k ∉ keys t.root) :
    toList (t.insert k v p).root =
      (toList t.root).filter (fun e => decide (e.1 < k)) ++
        (k, v) :: (toList t.root).filter (fun e => decide (k < e.1)) := by
  have h : is_present_loop t.root k = false := by
    cases h : is_present_loop t.root k with
    | false => rfl
    | true => exact absurd ((is_present_loop_iff _ _ hB).mp h) hk
  rw [insert_root_absent t k v p h, toList_merge, toList_merge, toList_split_fst _ _ hB,
    toList_split_snd _ _ hB]
  have hf : (toList t.root).filter (fun e => decide (k ≤ e.1)) =
      (toList t.root).filter (fun e => decide (k < e.1)) := by
    apply List.filter_congr
    intro e he
    have : e.1 ∈ keys t.root := by rw [keys_eq_map]; exact List.mem_map_of_mem _ he
    have hne : e.1 ≠ k := fun heq => hk (heq ▸ this)
    have : (k ≤ e.1) ↔ (k < e.1) := by omega
    simp [this]
  simp [toList, hf]

end SearchingTree

open SearchingTree

variable {C : Type}

/-- C2: inserting a key `k` absent from a tree satisfying the BST invariant
adds exactly one entry: the in-order sequence of the result is the entries
with key below `k`, then `(k, v)`, then the entries with key above `k`; it is
strictly increasing in the keys, `is_present k` is true afterwards and every
earlier entry is still stored with its value.  (The heap invariant is not
needed.) -/
theorem C2_insert_absent (t : SearchingTree C) (k : Int) (v : C) (p : Nat)
    (hB : BST t.root) (hk : k ∉ keys t.root) :
    toList (t.insert k v p).root =
        (toList t.root).filter (fun e => decide (e.1 < k)) ++
          (k, v) :: (toList t.root).filter (fun e => decide (k < e.1)) ∧
      (keys (t.insert k v p).root).Pairwise (· < ·) ∧
      (toList (t.insert k v p).root).length = (toList t.root).length + 1 ∧
      ((t.insert k v p).is_present k).1 = true ∧
      ∀ e ∈ toList t.root, e ∈ toList (t.insert k v p).root := by
  have hl := toList_insert t k v p hB hk
  have hB2 := BST_insert t k v p hB
  have hmem : ∀ e ∈ toList t.root, e ∈ toList (t.insert k v p).root := by
    intro e he
    have : e.1 ∈ keys t.root := by rw [keys_eq_map]; exact List.mem_map_of_mem _ he
    have hne : e.1 ≠ k := fun heq => hk (heq ▸ this)
    rw [hl]
    rcases lt_or_gt_of_ne hne with hlt | hgt
    · exact List.mem_append_left _ (List.mem_filter.mpr ⟨he, by simpa using hlt⟩)
    · exact List.mem_append_right _
        (List.mem_cons_of_mem _ (List.mem_filter.mpr ⟨he, by simpa using hgt⟩))
  refine ⟨hl, (BST_iff_sorted _).mp hB2, ?_, ?_, hmem⟩
  · have hcount : ∀ l : List (Int × C), (∀ e ∈ l, e.1 ≠ k) →
        (l.filter (fun e => decide (e.1 < k))).length +
          (l.filter (fun e => decide (k < e.1))).length = l.length := by
      intro l
      induction l with
      | nil => simp
      | cons a l ih =>
        intro hne
        have ha : a.1 ≠ k := hne a (List.mem_cons_self _ _)
        have ih2 := ih (fun e he => hne e (List.mem_cons_of_mem _ he))
        rcases lt_or_gt_of_ne ha with hlt | hgt
        · have hn : ¬ k < a.1 := by omega
          simp [List.filter_cons, hlt, hn] at *
          omega
        · have hn : ¬ a.1 < k := by omega
          simp [List.filter_cons, hgt, hn] at *
          omega
    have := hcount (toList t.root) (by
      intro e he heq
      apply hk
      rw [keys_eq_map, ← heq]
      exact List.mem_map_of_mem _ he)
    rw [hl]
    simp only [List.length_append, List.length_cons]
    omega
  · show is_present_loop (t.insert k v p).root k = true
    rw [is_present_loop_iff _ _ hB2, keys_eq_map, hl]
    simp


theorem C2_insert_absent_witness :
    BST (mainMap 3 2 1 4).root ∧ (5 : Int) ∉ keys (mainMap 3 2 1 4).root ∧
      toList ((mainMap 3 2 1 4).insert 5 120 7).root =
        (toList (mainMap 3 2 1 4).root).filter (fun e => decide (e.1 < 5)) ++
          (5, 120) :: (toList (mainMap 3 2 1 4).root).filter (fun e => decide (5 < e.1)) :=
  ⟨by decide, by decide,
    (C2_insert_absent (mainMap 3 2 1 4) 5 120 7 (by decide) (by decide)).1⟩

/-- C3: in the map built by `main` with priorities 3, 2, 1, 4 the key 2 is
stored; `erase 2` passes the membership test and both splits and then reaches
`delete q1.first`, after which no defined state follows: the call does not
return a map without key 2. -/
theorem C3_erase_stored_key :
    BST (mainMap 3 2 1 4).root ∧ Heap (mainMap 3 2 1 4).root ∧
      ((mainMap 3 2 1 4).is_present 2).1 = true ∧
      key_succ 2 = Except.ok 3 ∧
      (mainMap 3 2 1 4).erase 2 = Except.error Fault.undefined := by
  decide

/-- C4: on a tree satisfying the BST invariant, `is_present k` answers true
exactly when some node of the tree has key `k`, and the map after the call is
the map before it. -/
theorem C4_is_present (t : SearchingTree C) (k : Int) (hB : BST t.root) :
    ((t.is_present k).1 = true ↔ k ∈ keys t.root) ∧ (t.is_present k).2 = t :=
  ⟨is_present_loop_iff t.root k hB, rfl⟩


theorem C4_is_present_witness :
    BST (mainMap 3 2 1 4).root ∧
      ((((mainMap 3 2 1 4).is_present 3).1 = true ↔ (3 : Int) ∈ keys (mainMap 3 2 1 4).root) ∧
        ((mainMap 3 2 1 4).is_present 3).2 = mainMap 3 2 1 4) :=
  ⟨by decide, C4_is_present (mainMap 3 2 1 4) 3 (by decide)⟩

/-- C10: for a tree `v` satisfying the BST invariant, `split v k` returns
`(lo, hi)` where every key of `lo` is below `k`, every key of `hi` is at least
`k`, and the in-order sequence of `lo` followed by that of `hi` is the in-order
sequence of `v`, for the entries and for the nodes with their priorities. -/
theorem C10_split (v : PNode C) (k : Int) (hB : BST v) :
    (∀ x ∈ keys (split v k).1, x < k) ∧
      (∀ x ∈ keys (split v k).2, k ≤ x) ∧
      toList (split v k).1 ++ toList (split v k).2 = toList v ∧
      nodes (split v k).1 ++ nodes (split v k).2 = nodes v :=
  ⟨(split_bounds v k hB).1, (split_bounds v k hB).2, toList_split v k, nodes_split v k⟩


theorem C10_split_witness :
    BST (mainMap 3 2 1 4).root ∧
      toList (split (mainMap 3 2 1 4).root 3).1 ++ toList (split (mainMap 3 2 1 4).root 3).2 =
        toList (mainMap 3 2 1 4).root :=
  ⟨by decide, (C10_split (mainMap 3 2 1 4).root 3 (by decide)).2.2.1⟩


namespace PNode

variable {C : Type}

theorem subtree_append (t : PNode C) (a b : Addr) :
    subtree t (a ++ b) = subtree (subtree t a) b := by
  induction a generalizing t with
  | nil => rfl
  | cons d a ih => simp [subtree, ih]

theorem subtree_snoc (t : PNode C) (a : Addr) (d : Dir) :
    subtree t (a ++ [d]) = child (subtree t a) d := by
  rw [subtree_append]; rfl

end PNode

namespace Iterator

variable {C : Type}

theorem prepend_nil {α : Type} (r : Option (Except Fault (List α))) : prepend [] r = r := by
  rcases r with _ | ⟨f | es⟩ <;> rfl

theorem prepend_prepend {α : Type} (xs ys : List α) (r : Option (Except Fault (List α))) :
    prepend xs (prepend ys r) = prepend (xs ++ ys) r := by
  rcases r with _ | ⟨f | es⟩ <;> simp [prepend]

theorem ne_end_of_not_end (t : PNode C) (c : Option Addr) (st : List Addr) :
    ne t ⟨c, st, false⟩ ⟨none, [], true⟩ = Except.ok true := by
  simp [ne, eq]

theorem for_loop_step (t : PNode C) (fuel : Nat) (first last next : Iterator) (e : Int × C)
    (h1 : ne t first last = Except.ok true) (h2 : deref t first = Except.ok e)
    (h3 : incr t first = Except.ok next) :
    for_loop t (fuel + 1) first last = prepend [e] (for_loop t fuel next last) := by
  simp only [for_loop, h1, h2, h3]
  rcases for_loop t fuel next last with _ | ⟨f | es⟩ <;> rfl

theorem move_left_loop_eq (s : PNode C) (a : Addr) (st : List Addr) (h : s ≠ nil) :
    move_left_loop s a st = (incr_descend s a st).1 :: (incr_descend s a st).2 := by
  induction s generalizing a st with
  | nil => exact absurd rfl h
  | node p k v l r ihl _ =>
    cases l with
    | nil => simp [move_left_loop, incr_descend]
    | node pl kl vl ll lr =>
      simp only [move_left_loop, incr_descend] at *
      exact ihl _ _ (by simp)

theorem incr_pop_top (t : PNode C) (a : Addr) (q : Addr) (st : List Addr)
    (h : TopLeftOf a (q :: st)) : incr_pop t a (q :: st) = Except.ok (q, st) := by
  obtain ⟨x, hx⟩ := h q rfl
  have hne : ptr t q Dir.R ≠ some a := by
    unfold ptr
    split_ifs
    · intro heq
      have h2 : q ++ [Dir.R] = q ++ Dir.L :: x := (Option.some.inj heq).trans hx
      have h3 := List.append_cancel_left h2
      simp at h3
    · simp
  simp [incr_pop, hne]

theorem incr_no_right (t : PNode C) (a : Addr) (st : List Addr) (p : Nat) (k : Int) (v : C)
    (l : PNode C) (hs : subtree t a = node p k v l nil) (h : TopLeftOf a st) :
    incr t ⟨some a, st, false⟩ = Except.ok (popState st) := by
  cases st with
  | nil => simp [incr, hs, popState]
  | cons q st => simp [incr, hs, popState, incr_pop_top t a q st h]

theorem topLeftOf_snoc_left (a : Addr) (st : List Addr) : TopLeftOf (a ++ [Dir.L]) (a :: st) := by
  intro q hq
  simp at hq
  exact ⟨[], by rw [hq]⟩

theorem topLeftOf_snoc_right (a : Addr) (st : List Addr) (h : TopLeftOf a st) :
    TopLeftOf (a ++ [Dir.R]) st := by
  intro q hq
  obtain ⟨x, hx⟩ := h q hq
  exact ⟨x ++ [Dir.R], by rw [hx]; simp⟩

/-- Started at the leftmost node of the subtree `s` found at address `a`, with
the left spine of `s` pushed on a stack whose top has `a` in its left
subtree, the loop yields the in-order sequence of `s` and goes on from the
state reached by popping that stack. -/
theorem for_loop_subtree (t : PNode C) (s : PNode C) :
    ∀ (a : Addr) (st : List Addr) (fuel : Nat), subtree t a = s → s ≠ nil → TopLeftOf a st →
      for_loop t (size s + fuel) ⟨some (incr_descend s a st).1, (incr_descend s a st).2, false⟩
          ⟨none, [], true⟩ =
        prepend (toList s) (for_loop t fuel (popState st) ⟨none, [], true⟩) := by
  induction s with
  | nil => intro a st fuel _ h; exact absurd rfl h
  | node p k v l r ihl ihr =>
    intro a st fuel hs _ htop
    -- the part of the loop from the node at `a` on, with stack `st`
    have hnode : for_loop t (size r + fuel + 1) ⟨some a, st, false⟩ ⟨none, [], true⟩ =
        prepend ((k, v) :: toList r) (for_loop t fuel (popState st) ⟨none, [], true⟩) := by
      have hd : deref t ⟨some a, st, false⟩ = Except.ok (k, v) := by simp [deref, hs]
      cases r with
      | nil =>
        rw [for_loop_step t _ _ _ _ (k, v) (ne_end_of_not_end t _ _) hd
          (incr_no_right t a st p k v l hs htop)]
        simp [size, toList]
      | node pr kr vr rl rr =>
        have hi : incr t ⟨some a, st, false⟩ =
            Except.ok ⟨some (incr_descend (node pr kr vr rl rr) (a ++ [Dir.R]) st).1,
              (incr_descend (node pr kr vr rl rr) (a ++ [Dir.R]) st).2, false⟩ := by
          simp [incr, hs]
        rw [for_loop_step t _ _ _ _ (k, v) (ne_end_of_not_end t _ _) hd hi]
        rw [ihr (a ++ [Dir.R]) st fuel (by rw [subtree_snoc, hs]; rfl) (by simp)
          (topLeftOf_snoc_right a st htop)]
        rw [prepend_prepend]; rfl
    cases l with
    | nil =>
      have e1 : size (node p k v nil r) + fuel = size r + fuel + 1 := by simp [size]; omega
      rw [e1]
      simpa [incr_descend, toList] using hnode
    | node pl kl vl ll lr =>
      have e1 : size (node p k v (node pl kl vl ll lr) r) + fuel =
          size (node pl kl vl ll lr) + (size r + fuel + 1) := by simp [size]; omega
      rw [e1]
      have := ihl (a ++ [Dir.L]) (a :: st) (size r + fuel + 1) (by rw [subtree_snoc, hs]; rfl)
        (by simp) (topLeftOf_snoc_left a st)
      simp only [incr_descend]
      have hp : popState (a :: st) = ⟨some a, st, false⟩ := rfl
      rw [this, hp, hnode, prepend_prepend]
      simp [toList]

end Iterator

namespace SearchingTree

variable {C : Type}

theorem begin_eq (t : SearchingTree C) (h : t.root ≠ nil) :
    t.begin_ = Except.ok ⟨some (Iterator.incr_descend t.root [] []).1,
      (Iterator.incr_descend t.root [] []).2, false⟩ := by
  have hb : t.root.toBool = true := by
    cases hr : t.root with
    | nil => exact absurd hr h
    | node _ _ _ _ _ => rfl
  simp [begin_, Iterator.move_left, rootPtr, hb, subtree, Iterator.move_left_loop_eq _ _ _ h]

theorem traverse_eq (t : SearchingTree C) (h : t.root ≠ nil) (fuel : Nat) :
    t.traverse (size t.root + (fuel + 1)) = some (Except.ok (toList t.root)) := by
  unfold traverse
  rw [begin_eq t h]
  simp only [end_]
  rw [Iterator.for_loop_subtree t.root t.root [] [] (fuel + 1) rfl h (by intro q hq; simp at hq)]
  simp [Iterator.popState, Iterator.for_loop, Iterator.ne, Iterator.eq, Iterator.prepend]

end SearchingTree

/-- C5: for a non-empty tree satisfying the BST invariant, the full traversal
from `begin()` to `end()` terminates (any fuel above the number of nodes
suffices) and yields the in-order sequence of the entries: as many entries as
there are nodes, with strictly increasing keys. -/
theorem C5_full_traversal (t : SearchingTree C) (hne : t.root ≠ nil) (hB : BST t.root) :
    (∀ fuel, size t.root < fuel → t.traverse fuel = some (Except.ok (toList t.root))) ∧
      (toList t.root).length = size t.root ∧
      ((toList t.root).map Prod.fst).Pairwise (· < ·) := by
  refine ⟨?_, length_toList _, ?_⟩
  · intro fuel hf
    obtain ⟨n, rfl⟩ : ∃ n, fuel = size t.root + (n + 1) := ⟨fuel - size t.root - 1, by omega⟩
    exact traverse_eq t hne n
  · rw [← keys_eq_map]
    exact (BST_iff_sorted _).mp hB

theorem C5_full_traversal_witness :
    (mainMap 3 2 1 4).root ≠ nil ∧ BST (mainMap 3 2 1 4).root ∧
      (mainMap 3 2 1 4).traverse 5 = some (Except.ok (toList (mainMap 3 2 1 4).root)) :=
  ⟨by decide, by decide,
    (C5_full_traversal (mainMap 3 2 1 4) (by decide) (by decide)).1 5 (by decide)⟩


namespace SearchingTree

variable {C : Type}

/-- The candidate left by the loop of `upper_bound` run on the subtree `s` at
address `a`: the incoming candidate when no key of `s` exceeds `key`,
otherwise the address of the node of `s` with the least key above `key`. -/
theorem upper_bound_loop_spec (t : PNode C) (key : Int) (s : PNode C) :
    ∀ (a : Addr) (st : List Addr) (cand : Option Addr), subtree t a = s → BST s →
      ((∀ x ∈ keys s, ¬ key < x) ∧ (upper_bound_loop key s a st cand).2 = cand) ∨
      (∃ b p kk v l r, (upper_bound_loop key s a st cand).2 = some b ∧
        subtree t b = node p kk v l r ∧ (kk, v) ∈ toList s ∧ key < kk ∧
        ∀ x ∈ keys s, key < x → kk ≤ x) := by
  induction s with
  | nil => intro a st cand _ _; left; simp [keys, upper_bound_loop]
  | node p k v l r ihl ihr =>
    intro a st cand hs hB
    obtain ⟨h1, h2, h3, h4⟩ := hB
    simp only [upper_bound_loop]
    split_ifs with hk
    · right
      rcases ihl (a ++ [Dir.L]) (a :: st) (some a) (by rw [subtree_snoc, hs]; rfl) h3 with
        ⟨hno, hc⟩ | ⟨b, p1, kk, v1, l1, r1, hc, hb, hmem, hlt, hmin⟩
      · refine ⟨a, p, k, v, l, r, hc, hs, by simp [toList], hk, ?_⟩
        intro x hx hkx
        simp only [keys, List.mem_append, List.mem_cons] at hx
        rcases hx with hx | rfl | hx
        · exact absurd hkx (hno x hx)
        · exact le_refl _
        · exact le_of_lt (h2 x hx)
      · refine ⟨b, p1, kk, v1, l1, r1, hc, hb, by simp [toList, hmem], hlt, ?_⟩
        have hkk : kk < k := by
          apply h1
          rw [keys_eq_map]
          exact List.mem_map_of_mem Prod.fst hmem
        intro x hx hkx
        simp only [keys, List.mem_append, List.mem_cons] at hx
        rcases hx with hx | rfl | hx
        · exact hmin x hx hkx
        · exact le_of_lt hkk
        · exact le_of_lt (lt_trans hkk (h2 x hx))
    · have hle : k ≤ key := not_lt.mp hk
      rcases ihr (a ++ [Dir.R]) st cand (by rw [subtree_snoc, hs]; rfl) h4 with
        ⟨hno, hc⟩ | ⟨b, p1, kk, v1, l1, r1, hc, hb, hmem, hlt, hmin⟩
      · left
        refine ⟨?_, hc⟩
        intro x hx
        simp only [keys, List.mem_append, List.mem_cons] at hx
        rcases hx with hx | rfl | hx
        · have := h1 x hx; omega
        · omega
        · exact hno x hx
      · right
        refine ⟨b, p1, kk, v1, l1, r1, hc, hb, by simp [toList, hmem], hlt, ?_⟩
        intro x hx hkx
        simp only [keys, List.mem_append, List.mem_cons] at hx
        rcases hx with hx | rfl | hx
        · have := h1 x hx; omega
        · omega
        · exact hmin x hx hkx

end SearchingTree

/-- C8: on a tree satisfying the BST invariant, if some key exceeds `k` then
`upper_bound k` is not an end iterator (its flag is clear and it compares
unequal to `end()`), and dereferencing it yields the stored entry with the
least key strictly above `k`; if no key exceeds `k` then `upper_bound k` is
`end()` and compares equal to it. -/
theorem C8_upper_bound (t : SearchingTree C) (k : Int) (hB : BST t.root) :
    ((∃ x ∈ keys t.root, k < x) →
        (t.upper_bound k).is_end = false ∧
        Iterator.eq t.root (t.upper_bound k) t.end_ = Except.ok false ∧
        ∃ e, Iterator.deref t.root (t.upper_bound k) = Except.ok e ∧ e ∈ toList t.root ∧
          k < e.1 ∧ ∀ x ∈ keys t.root, k < x → e.1 ≤ x) ∧
      ((∀ x ∈ keys t.root, ¬ k < x) →
        t.upper_bound k = t.end_ ∧
        Iterator.eq t.root (t.upper_bound k) t.end_ = Except.ok true) := by
  have hspec := upper_bound_loop_spec t.root k t.root [] [] none rfl hB
  constructor
  · rintro ⟨x, hx, hkx⟩
    rcases hspec with ⟨hno, _⟩ | ⟨b, p1, kk, v1, l1, r1, hc, hb, hmem, hlt, hmin⟩
    · exact absurd hkx (hno x hx)
    · rcases hl : upper_bound_loop k t.root [] [] none with ⟨st, c⟩
      rw [hl] at hc
      simp only at hc
      subst hc
      refine ⟨by simp [upper_bound, hl], by simp [upper_bound, hl, Iterator.eq, end_], ?_⟩
      exact ⟨(kk, v1), by simp [upper_bound, hl, Iterator.deref, hb], hmem, hlt, hmin⟩
  · intro hall
    rcases hspec with ⟨_, hc⟩ | ⟨b, p1, kk, v1, l1, r1, _, _, hmem, hlt, _⟩
    · rcases hl : upper_bound_loop k t.root [] [] none with ⟨st, c⟩
      rw [hl] at hc
      simp only at hc
      subst hc
      exact ⟨by simp [upper_bound, hl], by simp [upper_bound, hl, Iterator.eq, end_]⟩
    · exact absurd hlt (hall kk (by rw [keys_eq_map]; exact List.mem_map_of_mem Prod.fst hmem))

theorem C8_upper_bound_witness :
    BST (mainMap 3 2 1 4).root ∧ (∃ x ∈ keys (mainMap 3 2 1 4).root, (3 : Int) < x) ∧
      ((mainMap 3 2 1 4).upper_bound 3).is_end = false :=
  ⟨by decide, by decide,
    ((C8_upper_bound (mainMap 3 2 1 4) 3 (by decide)).1 (by decide)).1⟩


namespace Iterator

variable {C : Type}

theorem for_loop_mono (t : PNode C) (last : Iterator) (n : Nat) :
    ∀ (first : Iterator) (res : Except Fault (List (Int × C))),
      for_loop t n first last = some res → for_loop t (n + 1) first last = some res := by
  induction n with
  | zero => intro first res h; simp [for_loop] at h
  | succ n ih =>
    intro first res h
    rw [for_loop] at h ⊢
    rcases hne : ne t first last with f | b
    · simpa [hne] using h
    · cases b with
      | false => simpa [hne] using h
      | true =>
        rcases hd : deref t first with f | e
        · simpa [hne, hd] using h
        · rcases hi : incr t first with f | next
          · simpa [hne, hd, hi] using h
          · simp only [hne, hd, hi] at h ⊢
            rcases hr : for_loop t n next last with _ | ⟨f | es⟩
            · simp [hr] at h
            · rw [ih next _ hr]; simpa [hr] using h
            · rw [ih next _ hr]; simpa [hr] using h

theorem for_loop_mono_add (t : PNode C) (first last : Iterator) (n : Nat)
    (res : Except Fault (List (Int × C))) (h : for_loop t n first last = some res) (m : Nat) :
    for_loop t (n + m) first last = some res := by
  induction m with
  | zero => exact h
  | succ m ih => exact for_loop_mono t last (n + m) first res ih

end Iterator

/-- C6: in the map built by `main` with priorities 3, 2, 1, 4 the entry
`(4, 24)` is stored at the root, which has a left child; `find 4` returns an
iterator at that node whose end flag is set, so it compares equal to `end()`
and dereferencing it throws. -/
theorem C6_find_sets_end_flag :
    BST (mainMap 3 2 1 4).root ∧ (4, 24) ∈ toList (mainMap 3 2 1 4).root ∧
      (mainMap 3 2 1 4).find 4 = ⟨some [], [], true⟩ ∧
      Iterator.eq (mainMap 3 2 1 4).root ((mainMap 3 2 1 4).find 4) (mainMap 3 2 1 4).end_ =
        Except.ok true ∧
      Iterator.deref (mainMap 3 2 1 4).root ((mainMap 3 2 1 4).find 4) =
        Except.error Fault.runtime_error := by
  decide

/-- C7: in the map built by `main` with priorities 3, 2, 1, 4 (keys 1 to 4),
`lower_bound 0` returns an iterator with a null `cur` and a clear end flag,
whose dereference reads through the null pointer although `(1, 1)` is the
entry with the least key at or above 0; `lower_bound 5` returns such an
iterator too, which does not compare equal to `end()` although no key is at
or above 5. -/
theorem C7_lower_bound_absent_key :
    BST (mainMap 3 2 1 4).root ∧ toList (mainMap 3 2 1 4).root = [(1, 1), (2, 2), (3, 6), (4, 24)] ∧
      ((mainMap 3 2 1 4).lower_bound 0).cur = none ∧
      ((mainMap 3 2 1 4).lower_bound 0).is_end = false ∧
      Iterator.deref (mainMap 3 2 1 4).root ((mainMap 3 2 1 4).lower_bound 0) =
        Except.error Fault.undefined ∧
      ((mainMap 3 2 1 4).lower_bound 5).cur = none ∧
      Iterator.eq (mainMap 3 2 1 4).root ((mainMap 3 2 1 4).lower_bound 5) (mainMap 3 2 1 4).end_ =
        Except.ok false := by
  decide

/-- C9: in the map built by `main` with priorities 3, 2, 1, 4 (a tree
satisfying both invariants), the loop over `range(2, 4)` finishes after six
comparisons and yields `(2, 2), (3, 6), (1, 1), (2, 2), (3, 6)`; with no
amount of fuel does it yield `(2, 2), (3, 6)`, the entries with key in
`[2, 4)`. -/
theorem C9_range_revisits :
    BST (mainMap 3 2 1 4).root ∧ Heap (mainMap 3 2 1 4).root ∧
      (toList (mainMap 3 2 1 4).root).filter (fun e => decide (2 ≤ e.1 ∧ e.1 < 4)) =
        [(2, 2), (3, 6)] ∧
      (mainMap 3 2 1 4).traverse_range 2 4 6 =
        some (Except.ok [(2, 2), (3, 6), (1, 1), (2, 2), (3, 6)]) ∧
      ∀ fuel, (mainMap 3 2 1 4).traverse_range 2 4 fuel ≠ some (Except.ok [(2, 2), (3, 6)]) := by
  have h6 : (mainMap 3 2 1 4).traverse_range 2 4 6 =
      some (Except.ok [(2, 2), (3, 6), (1, 1), (2, 2), (3, 6)]) := by decide
  refine ⟨by decide, by decide, by decide, h6, ?_⟩
  intro fuel hf
  rcases Nat.lt_or_ge fuel 6 with hlt | hge
  · have h := Iterator.for_loop_mono_add _ _ _ _ _ hf (6 - fuel)
    have e : fuel + (6 - fuel) = 6 := by omega
    rw [e] at h
    have h2 : (mainMap 3 2 1 4).traverse_range 2 4 6 = some (Except.ok [(2, 2), (3, 6)]) := h
    rw [h6] at h2
    exact absurd h2 (by decide)
  · have h := Iterator.for_loop_mono_add _ _ _ _ _ h6 (fuel - 6)
    have e : 6 + (fuel - 6) = fuel := by omega
    rw [e] at h
    have h2 : (mainMap 3 2 1 4).traverse_range 2 4 fuel =
        some (Except.ok [(2, 2), (3, 6), (1, 1), (2, 2), (3, 6)]) := h
    rw [h2] at hf
    exact absurd hf (by decide)

namespace PNode

variable {C : Type}

theorem nodes_merge (l r : PNode C) : nodes (merge l r) = nodes l ++ nodes r := by
  refine merge_induction (P := fun l r => nodes (merge l r) = nodes l ++ nodes r)
    ?_ ?_ ?_ ?_ l r
  · intro r; simp [merge_nil_left, nodes]
  · intro l; simp [merge_nil_right, nodes]
  · intro pl kl vl ll lr pr kr vr rl rr h ih
    rw [merge_node_node, if_pos h]
    simp [nodes, ih] at *
  · intro pl kl vl ll lr pr kr vr rl rr h ih
    rw [merge_node_node, if_neg h]
    simp [nodes, ih] at *

theorem priors_split (v : PNode C) (key : Int) :
    priors (split v key).1 ++ priors (split v key).2 = priors v := by
  induction v with
  | nil => rfl
  | node p k x l r ihl ihr =>
    simp only [split]
    split_ifs
    · simp [priors, ihr]
    · simp [priors, ← ihl]

theorem priors_le_of_heap (t : PNode C) (p : Nat) (hH : Heap t) (hp : rootLE t p) :
    ∀ q ∈ priors t, q ≤ p := by
  induction t generalizing p with
  | nil => intro q hq; simp [priors] at hq
  | node a k x l r ihl ihr =>
    obtain ⟨h1, h2, h3, h4⟩ := hH
    have hap : a ≤ p := hp
    intro q hq
    simp only [priors, List.mem_append, List.mem_cons] at hq
    rcases hq with hq | rfl | hq
    · exact le_trans (ihl a h3 h1 q hq) hap
    · exact hap
    · exact le_trans (ihr a h4 h2 q hq) hap

theorem merge_split (v : PNode C) (key : Int) (hH : Heap v) (hd : (priors v).Nodup) :
    merge (split v key).1 (split v key).2 = v := by
  induction v with
  | nil => rfl
  | node p k x l r ihl ihr =>
    obtain ⟨h1, h2, h3, h4⟩ := hH
    simp only [priors] at hd
    have hdl : (priors l).Nodup := (List.nodup_append.mp hd).1
    have hdr : (priors r).Nodup := (List.nodup_cons.mp (List.nodup_append.mp hd).2.1).2
    have hpr : p ∉ priors r := (List.nodup_cons.mp (List.nodup_append.mp hd).2.1).1
    have il := ihl h3 hdl
    have ir := ihr h4 hdr
    simp only [split]
    split_ifs with hk
    · simp only
      cases hs : (split r key).2 with
      | nil =>
        rw [hs, merge_nil_right] at ir
        rw [merge_nil_right, ir]
      | node pr kr vr rl rr =>
        have hmem : pr ∈ priors r := by
          rw [← priors_split r key, hs]
          simp [priors]
        have hle : pr ≤ p := priors_le_of_heap r p h4 h2 pr hmem
        have hne : pr ≠ p := fun e => hpr (e ▸ hmem)
        have hlt : p > pr := lt_of_le_of_ne hle hne
        rw [merge_node_node, if_pos hlt, ← hs, ir]
    · simp only
      cases hs : (split l key).1 with
      | nil =>
        rw [hs, merge_nil_left] at il
        rw [merge_nil_left, il]
      | node pl kl vl ll lr =>
        have hmem : pl ∈ priors l := by
          rw [← priors_split l key, hs]
          simp [priors]
        have hle : pl ≤ p := priors_le_of_heap l p h3 h1 pl hmem
        rw [merge_node_node, if_neg (not_lt.mpr hle), ← hs, il]

end PNode

/-- C11: when `v` satisfies the BST and heap invariants, both trees returned by
`split v k` satisfy the BST invariant and the heap invariant. -/
theorem C11_split_invariants (v : PNode C) (k : Int) (hB : BST v) (hH : Heap v) :
    BST (split v k).1 ∧ Heap (split v k).1 ∧ BST (split v k).2 ∧ Heap (split v k).2 :=
  ⟨(BST_split v k hB).1, (Heap_split v k hH).1, (BST_split v k hB).2, (Heap_split v k hH).2⟩

theorem C11_split_invariants_witness :
    BST (mainMap 3 2 1 4).root ∧ Heap (mainMap 3 2 1 4).root ∧
      (BST (split (mainMap 3 2 1 4).root 3).1 ∧ Heap (split (mainMap 3 2 1 4).root 3).1 ∧
        BST (split (mainMap 3 2 1 4).root 3).2 ∧ Heap (split (mainMap 3 2 1 4).root 3).2) :=
  ⟨by decide, by decide, C11_split_invariants (mainMap 3 2 1 4).root 3 (by decide) (by decide)⟩

/-- C12: when `l` and `r` satisfy the BST and heap invariants and every key
of `l` is below every key of `r`, `merge l r` satisfies the BST invariant and
the heap invariant, and its in-order sequence is that of `l` followed by that
of `r`, for the entries and for the nodes with their priorities. -/
theorem C12_merge (l r : PNode C) (hBl : BST l) (hHl : Heap l) (hBr : BST r) (hHr : Heap r)
    (h : ∀ x ∈ keys l, ∀ y ∈ keys r, x < y) :
    BST (merge l r) ∧ Heap (merge l r) ∧ toList (merge l r) = toList l ++ toList r ∧
      nodes (merge l r) = nodes l ++ nodes r :=
  ⟨BST_merge hBl hBr h, Heap_merge l r hHl hHr, toList_merge l r, nodes_merge l r⟩

theorem C12_merge_witness :
    toList (merge (split (mainMap 3 2 1 4).root 3).1 (split (mainMap 3 2 1 4).root 3).2) =
      toList (split (mainMap 3 2 1 4).root 3).1 ++ toList (split (mainMap 3 2 1 4).root 3).2 :=
  (C12_merge (split (mainMap 3 2 1 4).root 3).1 (split (mainMap 3 2 1 4).root 3).2
    (by decide) (by decide) (by decide) (by decide) (by decide)).2.2.1

/-- C13: on a tree satisfying the BST invariant, `insert k v` for a key `k`
already stored leaves the map as it was (same tree, so same shape, keys,
priorities and values); the entries, `is_present` and `find` are unchanged. -/
theorem C13_insert_present (t : SearchingTree C) (k : Int) (v : C) (p : Nat)
    (hB : BST t.root) (hk : k ∈ keys t.root) :
    t.insert k v p = t ∧
      toList (t.insert k v p).root = toList t.root ∧
      (∀ k1, ((t.insert k v p).is_present k1).1 = (t.is_present k1).1) ∧
      ∀ k1, (t.insert k v p).find k1 = t.find k1 := by
  have h : t.insert k v p = t := insert_present t k v p ((is_present_loop_iff _ _ hB).mpr hk)
  rw [h]
  exact ⟨rfl, rfl, fun _ => rfl, fun _ => rfl⟩

theorem C13_insert_present_witness :
    BST (mainMap 3 2 1 4).root ∧ (3 : Int) ∈ keys (mainMap 3 2 1 4).root ∧
      (mainMap 3 2 1 4).insert 3 7 9 = mainMap 3 2 1 4 :=
  ⟨by decide, by decide, (C13_insert_present (mainMap 3 2 1 4) 3 7 9 (by decide) (by decide)).1⟩

/-- C17: for non-empty `l` and `r`, the root of `merge l r` is the root node
of `l` (with its left subtree) when the priority of `l`'s root is strictly
greater than that of `r`'s root, and otherwise the root node of `r` (with its
right subtree); with equal priorities it is the root of `r`. -/
theorem C17_merge_root (pl : Nat) (kl : Int) (vl : C) (ll lr : PNode C)
    (pr : Nat) (kr : Int) (vr : C) (rl rr : PNode C) :
    (pl > pr → merge (node pl kl vl ll lr) (node pr kr vr rl rr) =
        node pl kl vl ll (merge lr (node pr kr vr rl rr))) ∧
      (¬ pl > pr → merge (node pl kl vl ll lr) (node pr kr vr rl rr) =
        node pr kr vr (merge (node pl kl vl ll lr) rl) rr) ∧
      (pl = pr → ∃ x, merge (node pl kl vl ll lr) (node pr kr vr rl rr) = node pr kr vr x rr) := by
  refine ⟨?_, ?_, ?_⟩
  · intro h; rw [merge_node_node, if_pos h]
  · intro h; rw [merge_node_node, if_neg h]
  · intro h
    refine ⟨merge (node pl kl vl ll lr) rl, ?_⟩
    rw [merge_node_node, if_neg (by omega)]

theorem C17_merge_root_witness :
    merge (node 5 1 (10 : Int) nil nil) (node 5 2 20 nil nil) =
      node 5 2 20 (merge (node 5 1 10 nil nil) nil) nil :=
  (C17_merge_root 5 1 10 nil nil 5 2 20 nil nil).2.1 (by decide)

/-- C20: when `v` satisfies the heap invariant and no two of its nodes have
the same priority, merging the two trees returned by `split v k` gives back
`v` itself: same shape, keys, values and priorities.  (The BST invariant is
not needed.) -/
theorem C20_merge_split (v : PNode C) (k : Int) (hH : Heap v) (hd : (priors v).Nodup) :
    merge (split v k).1 (split v k).2 = v :=
  merge_split v k hH hd

theorem C20_merge_split_witness :
    Heap (mainMap 3 2 1 4).root ∧ (priors (mainMap 3 2 1 4).root).Nodup ∧
      merge (split (mainMap 3 2 1 4).root 3).1 (split (mainMap 3 2 1 4).root 3).2 =
        (mainMap 3 2 1 4).root :=
  ⟨by decide, by decide, C20_merge_split (mainMap 3 2 1 4).root 3 (by decide) (by decide)⟩

namespace SearchingTree

variable {C : Type}

/-- The loop of `lower_bound` run on the subtree `s` at address `a` for a key
stored in `s`: it stops at the node holding that key, with a clear end flag. -/
theorem lower_bound_loop_spec (t : PNode C) (key : Int) (s : PNode C) :
    ∀ (a : Addr) (st : List Addr) (v : C), subtree t a = s → BST s → (key, v) ∈ toList s →
      ∃ b st1 p l r, lower_bound_loop key s a st = ⟨some b, st1, false⟩ ∧
        subtree t b = node p key v l r := by
  induction s with
  | nil => intro a st v _ _ h; simp [toList] at h
  | node p k x l r ihl ihr =>
    intro a st v hs hB hmem
    obtain ⟨h1, h2, h3, h4⟩ := hB
    simp only [toList, List.mem_append, List.mem_cons, Prod.mk.injEq] at hmem
    simp only [lower_bound_loop]
    split_ifs with e hlt
    · subst e
      rcases hmem with hm | ⟨_, rfl⟩ | hm
      · exact absurd (fst_lt_of_mem_toList h1 _ hm) (lt_irrefl _)
      · exact ⟨a, st, p, l, r, rfl, hs⟩
      · exact absurd (fst_lt_of_mem_toList h2 _ hm) (lt_irrefl _)
    · rcases hmem with hm | ⟨rfl, _⟩ | hm
      · have := fst_lt_of_mem_toList h1 _ hm
        simp only at this
        omega
      · exact absurd rfl e
      · exact ihr (a ++ [Dir.R]) (a :: st) v (by rw [subtree_snoc, hs]; rfl) h4 hm
    · rcases hmem with hm | ⟨rfl, _⟩ | hm
      · exact ihl (a ++ [Dir.L]) (a :: st) v (by rw [subtree_snoc, hs]; rfl) h3 hm
      · exact absurd rfl e
      · have := fst_lt_of_mem_toList h2 _ hm
        simp only at this
        omega

end SearchingTree

/-- C18: on a tree satisfying the BST invariant, for a stored entry `(k, v)`
the iterator `lower_bound k` has a clear end flag, compares unequal to
`end()`, and dereferences to `(k, v)`. -/
theorem C18_lower_bound_present (t : SearchingTree C) (k : Int) (v : C) (hB : BST t.root)
    (h : (k, v) ∈ toList t.root) :
    (t.lower_bound k).is_end = false ∧
      Iterator.eq t.root (t.lower_bound k) t.end_ = Except.ok false ∧
      Iterator.deref t.root (t.lower_bound k) = Except.ok (k, v) := by
  obtain ⟨b, st1, p, l, r, hlb, hb⟩ := lower_bound_loop_spec t.root k t.root [] [] v rfl hB h
  have e : t.lower_bound k = ⟨some b, st1, false⟩ := hlb
  rw [e]
  exact ⟨rfl, by simp [Iterator.eq, end_], by simp [Iterator.deref, hb]⟩

theorem C18_lower_bound_present_witness :
    BST (mainMap 3 2 1 4).root ∧ ((3 : Int), (6 : Int)) ∈ toList (mainMap 3 2 1 4).root ∧
      Iterator.deref (mainMap 3 2 1 4).root ((mainMap 3 2 1 4).lower_bound 3) = Except.ok (3, 6) :=
  ⟨by decide, by decide,
    (C18_lower_bound_present (mainMap 3 2 1 4) 3 6 (by decide) (by decide)).2.2⟩

/-- C16: on the empty map `begin()` takes the top of an empty stack, which is
undefined behaviour; the full traversal fails in the same way whatever the
fuel. -/
theorem C16_begin_on_empty :
    (SearchingTree.empty : SearchingTree Int).begin_ = Except.error Fault.undefined ∧
      ∀ fuel, (SearchingTree.empty : SearchingTree Int).traverse fuel =
        some (Except.error Fault.undefined) :=
  ⟨by decide, fun _ => rfl⟩

/-- C19: in the map built by `main` with priorities 3, 2, 1, 4,
`upper_bound 2` is positioned at the node holding key 3 and `++` leaves it at
that node instead of moving to key 4; `upper_bound 3` is positioned at the
node holding the largest key 4 and `++` leaves it there, not in the end
state. -/
theorem C19_incr_after_upper_bound :
    BST (mainMap 3 2 1 4).root ∧ Heap (mainMap 3 2 1 4).root ∧
      toList (mainMap 3 2 1 4).root = [(1, 1), (2, 2), (3, 6), (4, 24)] ∧
      Iterator.deref (mainMap 3 2 1 4).root ((mainMap 3 2 1 4).upper_bound 2) =
        Except.ok (3, 6) ∧
      Iterator.incr (mainMap 3 2 1 4).root ((mainMap 3 2 1 4).upper_bound 2) =
        Except.ok ⟨some [Dir.L, Dir.R, Dir.R], [[]], false⟩ ∧
      Iterator.deref (mainMap 3 2 1 4).root ⟨some [Dir.L, Dir.R, Dir.R], [[]], false⟩ =
        Except.ok (3, 6) ∧
      Iterator.deref (mainMap 3 2 1 4).root ((mainMap 3 2 1 4).upper_bound 3) =
        Except.ok (4, 24) ∧
      Iterator.incr (mainMap 3 2 1 4).root ((mainMap 3 2 1 4).upper_bound 3) =
        Except.ok ⟨some [], [], false⟩ := by
  decide

namespace SearchingTree

variable {C : Type}

end SearchingTree

end Treap
